import Mathlib

/-!
Verification of the duplicate-vertex detection and mesh compaction core
(`findDuplicates` / `removeDuplicates`) of the Radium main-window module
(`src/MainApplication/Gui/MainWindow.cpp`).

The mesh scalar type is modelled as `Int`: the source compares coordinates
with exact equality and exact less-than only (no arithmetic is performed on
coordinates), so any linearly ordered scalar with decidable exact comparison
is a faithful carrier for the comparisons the code makes.

The C++ `Index` type (a signed integer with `Index::Invalid() == -1`) is
modelled as `Int`.  Unchecked `std::vector` indexing is modelled with
`List.getD` except for the one access the code makes that can be out of
range for a well-formed input: `vertices[0]` in `findDuplicates`, which is
out of range exactly when the mesh has zero vertices.  That access is
modelled by returning `none`.
-/

namespace MeshDedup

/-- A 3D vector with exactly compared scalar components
(`Ra::Core::Vector3` as used by the deduplication code). -/
structure Vec3 where
  x : Int
  y : Int
  z : Int
deriving DecidableEq

/-- Junk value used as the `List.getD` default for unchecked vector indexing. -/
def vec3def : Vec3 := ⟨0, 0, 0⟩

instance : Inhabited Vec3 := ⟨vec3def⟩

/-- A triangle mesh as consumed by the deduplicator: vertex positions,
per-vertex normals, and triangle index triples
(`Ra::Core::Geometry::TriangleMesh`: `vertices()`, `normals()`, `m_indices`). -/
structure Mesh where
  vertices : List Vec3
  normals : List Vec3
  indices : List (Nat × Nat × Nat)
deriving DecidableEq

/-- The §3 invariants: normals aligned with vertices, and all triangle
indices in range. -/
def Mesh.wf (m : Mesh) : Prop :=
  m.normals.length = m.vertices.length ∧
    ∀ t ∈ m.indices, t.1 < m.vertices.length ∧ t.2.1 < m.vertices.length ∧
      t.2.2 < m.vertices.length

instance (m : Mesh) : Decidable m.wf := by
  unfold Mesh.wf; infer_instance

/-- The comparator passed to `std::sort` in `findDuplicates`: lexicographic
strict order on (x, y, z), ties broken by the original index. -/
def vertLt (a b : Vec3 × Int) : Bool :=
  if a.1.x = b.1.x then
    if a.1.y = b.1.y then
      if a.1.z = b.1.z then decide (a.2 < b.2)
      else decide (a.1.z < b.1.z)
    else decide (a.1.y < b.1.y)
  else decide (a.1.x < b.1.x)

/-- The non-strict order induced by the comparator; `std::sort`'s
postcondition is sortedness with respect to this relation. -/
def vertLe (a b : Vec3 × Int) : Prop := vertLt b a = false

instance : DecidableRel vertLe := fun _ _ => instDecidableEqBool _ _

/-- The vertex pairing step of `findDuplicates`: the sequence
`(position, originalIndex)` in original order (the parallel fill loop). -/
def pairsOf (m : Mesh) : List (Vec3 × Int) :=
  (List.range m.vertices.length).map (fun i => (m.vertices.getD i vec3def, (i : Int)))

/-- The sorting step of `findDuplicates` (`std::sort` with `vertLt`). -/
def sortPairs (l : List (Vec3 × Int)) : List (Vec3 × Int) :=
  List.insertionSort vertLe l

/-- The sequential chaining walk of `findDuplicates`, processing the sorted
pairs after the first one: state is the duplicates map, the previous sorted
element, and the `hasDuplicates` flag. -/
def walk (dm : List Int) (prev : Vec3 × Int) (hd : Bool) :
    List (Vec3 × Int) → List Int × Bool
  | [] => (dm, hd)
  | cur :: rest =>
    if cur.1 = prev.1 then
      walk (dm.set cur.2.toNat (dm.getD prev.2.toNat (-1))) cur true rest
    else
      walk (dm.set cur.2.toNat cur.2) cur hd rest

/-- The post-sort stage of `findDuplicates`: seed the map with the first
sorted element (`duplicatesMap[vertices[0].second] = vertices[0].second`)
and run the chaining walk.  An empty sorted sequence means the code's
`vertices[0]` access is out of range: modelled as `none`. -/
def dedupWalk (numVerts : Nat) : List (Vec3 × Int) → Option (Bool × List Int)
  | [] => none
  | v0 :: rest =>
    let dm0 := (List.replicate numVerts (-1 : Int)).set v0.2.toNat v0.2
    let r := walk dm0 v0 false rest
    some (r.2, r.1)

/-- Function `findDuplicates`: returns `hasDuplicates` and the duplicates map, or
`none` when the code's unguarded first-element access is out of range
(zero-vertex mesh). -/
def findDuplicates (m : Mesh) : Option (Bool × List Int) :=
  dedupWalk m.vertices.length (sortPairs (pairsOf m))

/-- One iteration of the compaction scan in `removeDuplicates`: when vertex
`i` is its own representative, record its compacted index and append its
position and normal. -/
def compactStep (verts norms : List Vec3) (dm : List Int)
    (st : List Int × List Vec3 × List Vec3) (i : Nat) :
    List Int × List Vec3 × List Vec3 :=
  if dm.getD i (-1) = (i : Int) then
    (st.1.set i (st.2.1.length : Int),
      st.2.1 ++ [verts.getD i vec3def],
      st.2.2 ++ [norms.getD i vec3def])
  else st

/-- Function `removeDuplicates`: detect duplicates, build `newIndices` and the
compacted vertex/normal arrays, rewrite every triangle index through
`newIndices[duplicatesMap[idx]]`, fill the vertex remap, and replace the
mesh arrays.  Returns the mutated mesh and the remap (`vertexMap`), or
`none` when the embedded `findDuplicates` faults (zero-vertex mesh). -/
def removeDuplicates (m : Mesh) : Option (Mesh × List Int) :=
  match findDuplicates m with
  | none => none
  | some (_, dm) =>
    let n := m.vertices.length
    let res := (List.range n).foldl (compactStep m.vertices m.normals dm)
      (List.replicate n (-1 : Int), ([] : List Vec3), ([] : List Vec3))
    let newIndices := res.1
    let newIdx : Nat → Nat :=
      fun idx => (newIndices.getD (dm.getD idx (-1)).toNat (-1)).toNat
    let newTris := m.indices.map (fun t => (newIdx t.1, newIdx t.2.1, newIdx t.2.2))
    let vertexMap := (List.range n).map
      (fun i => newIndices.getD (dm.getD i (-1)).toNat (-1))
    some ({ vertices := res.2.1, normals := res.2.2, indices := newTris }, vertexMap)

/-- Position of vertex `i` of mesh `m`. -/
def posAt (m : Mesh) (i : Nat) : Vec3 := m.vertices.getD i vec3def

/-- Normal of vertex `i` of mesh `m`. -/
def nrmAt (m : Mesh) (i : Nat) : Vec3 := m.normals.getD i vec3def

/-- The representative of vertex `i`: the first (hence smallest) original
index whose position equals the position of `i`. -/
def rep (m : Mesh) (i : Nat) : Nat :=
  m.vertices.findIdx (fun v => decide (v = posAt m i))

/-- The list of representative vertices (fixed points of `rep`) in
increasing index order. -/
def repsL (m : Mesh) : List Nat :=
  (List.range m.vertices.length).filter (fun i => decide (rep m i = i))

/-- Index of the first occurrence of `a` in a list of naturals. -/
def idxOf (a : Nat) : List Nat → Nat
  | [] => 0
  | b :: t => if b = a then 0 else idxOf a t + 1

/-- The compacted index of original vertex `i`: the position of its
representative in the representative list. -/
def compIdx (m : Mesh) (i : Nat) : Nat := idxOf (rep m i) (repsL m)

/-- The compacted mesh, expressed directly in terms of representatives:
proven below to be what `removeDuplicates` produces. -/
def compactMesh (m : Mesh) : Mesh :=
  { vertices := (repsL m).map (posAt m)
    normals := (repsL m).map (nrmAt m)
    indices := m.indices.map (fun t => (compIdx m t.1, compIdx m t.2.1, compIdx m t.2.2)) }

/-- The vertex remap expressed directly in terms of representatives:
proven below to be what `removeDuplicates` produces. -/
def remapSpec (m : Mesh) : List Int :=
  (List.range m.vertices.length).map (fun i => (compIdx m i : Int))

/-- Whether two adjacent elements of the list carry equal positions. -/
def adjacentDup : List (Vec3 × Int) → Bool
  | a :: b :: t => (decide (a.1 = b.1)) || adjacentDup (b :: t)
  | _ => false

/-- The index component of the first element of `l` whose position is `p`. -/
def firstIdx (p : Vec3) : List (Vec3 × Int) → Int
  | [] => 0
  | q :: t => if q.1 = p then q.2 else firstIdx p t

/-- The duplicates map in closed form: entry `i` is the representative of
vertex `i`. -/
def dmapSpec (m : Mesh) : List Int :=
  (List.range m.vertices.length).map (fun i => (rep m i : Int))

/-- The worked scenario mesh of spec §8, also used to instantiate witnesses:
four vertices with one duplicated position, one triangle. -/
def meshA : Mesh :=
  { vertices := [⟨0, 0, 0⟩, ⟨1, 0, 0⟩, ⟨0, 0, 0⟩, ⟨1, 1, 0⟩]
    normals := [⟨0, 0, 1⟩, ⟨0, 0, 1⟩, ⟨0, 0, 1⟩, ⟨0, 0, 1⟩]
    indices := [(0, 1, 2)] }

/-- The compacted mesh the spec expects for `meshA`. -/
def meshA' : Mesh :=
  { vertices := [⟨0, 0, 0⟩, ⟨1, 0, 0⟩, ⟨1, 1, 0⟩]
    normals := [⟨0, 0, 1⟩, ⟨0, 0, 1⟩, ⟨0, 0, 1⟩]
    indices := [(0, 1, 0)] }

/-- The vertex remap the spec expects for `meshA`. -/
def vmA : List Int := [0, 1, 0, 2]

/-- A mesh with a run of three identical positions (original indices 1, 2, 3)
carrying three different normals; used to instantiate witnesses. -/
def meshB : Mesh :=
  { vertices := [⟨5, 5, 5⟩, ⟨1, 2, 3⟩, ⟨1, 2, 3⟩, ⟨1, 2, 3⟩, ⟨0, 4, 0⟩]
    normals := [⟨1, 0, 0⟩, ⟨0, 1, 0⟩, ⟨0, 0, 1⟩, ⟨1, 1, 0⟩, ⟨0, 0, 1⟩]
    indices := [(0, 2, 3), (4, 1, 2)] }

/-- The compacted mesh `removeDuplicates` produces for `meshB`. -/
def meshB' : Mesh :=
  { vertices := [⟨5, 5, 5⟩, ⟨1, 2, 3⟩, ⟨0, 4, 0⟩]
    normals := [⟨1, 0, 0⟩, ⟨0, 1, 0⟩, ⟨0, 0, 1⟩]
    indices := [(0, 1, 1), (2, 1, 1)] }

/-- The vertex remap `removeDuplicates` produces for `meshB`. -/
def vmB : List Int := [0, 1, 1, 1, 2]

/-! ### The comparator is a strict total order -/

/-- Propositional form of the comparator: strict lexicographic order on
(x, y, z, index). -/
def keyLtP (a b : Vec3 × Int) : Prop :=
  a.1.x < b.1.x ∨ (a.1.x = b.1.x ∧ (a.1.y < b.1.y ∨ (a.1.y = b.1.y ∧
    (a.1.z < b.1.z ∨ (a.1.z = b.1.z ∧ a.2 < b.2)))))

lemma vertLt_iff (a b : Vec3 × Int) : vertLt a b = true ↔ keyLtP a b := by
  obtain ⟨⟨ax, ay, az⟩, ai⟩ := a
  obtain ⟨⟨bx, b1, b2⟩, bi⟩ := b
  simp only [vertLt, keyLtP]
  split_ifs <;> simp_all

lemma keyLt_irrefl (a : Vec3 × Int) : ¬ keyLtP a a := by
  simp [keyLtP]

lemma keyLt_trans {a b c : Vec3 × Int} (h₁ : keyLtP a b) (h₂ : keyLtP b c) :
    keyLtP a c := by
  obtain ⟨⟨ax, ay, az⟩, ai⟩ := a
  obtain ⟨⟨bx, b1, b2⟩, bi⟩ := b
  obtain ⟨⟨cx, cy, cz⟩, ci⟩ := c
  simp only [keyLtP] at h₁ h₂ ⊢
  omega

lemma keyLt_asymm {a b : Vec3 × Int} (h : keyLtP a b) : ¬ keyLtP b a :=
  fun h' => keyLt_irrefl a (keyLt_trans h h')

lemma keyLt_connex {a b : Vec3 × Int} (h₁ : ¬ keyLtP a b) (h₂ : ¬ keyLtP b a) :
    a = b := by
  obtain ⟨⟨ax, ay, az⟩, ai⟩ := a
  obtain ⟨⟨bx, b1, b2⟩, bi⟩ := b
  simp only [keyLtP] at h₁ h₂
  simp only [Prod.mk.injEq, Vec3.mk.injEq]
  omega

lemma not_keyLt_cases {a b : Vec3 × Int} (h : ¬ keyLtP b a) :
    keyLtP a b ∨ a = b := by
  by_cases hab : keyLtP a b
  · exact Or.inl hab
  · exact Or.inr (keyLt_connex hab h)

lemma keyLt_sandwich {a b c : Vec3 × Int} (h₁ : keyLtP a b) (h₂ : keyLtP b c)
    (h : a.1 = c.1) : a.1 = b.1 := by
  obtain ⟨⟨ax, ay, az⟩, ai⟩ := a
  obtain ⟨⟨bx, b1, b2⟩, bi⟩ := b
  obtain ⟨⟨cx, cy, cz⟩, ci⟩ := c
  simp only [keyLtP] at h₁ h₂
  simp only [Vec3.mk.injEq] at h ⊢
  omega

lemma keyLt_snd {a b : Vec3 × Int} (h : a.1 = b.1) : keyLtP a b ↔ a.2 < b.2 := by
  obtain ⟨⟨ax, ay, az⟩, ai⟩ := a
  obtain ⟨⟨bx, b1, b2⟩, bi⟩ := b
  simp only [Vec3.mk.injEq] at h
  simp only [keyLtP]
  omega

lemma vertLe_iff (a b : Vec3 × Int) : vertLe a b ↔ ¬ keyLtP b a := by
  rw [vertLe, ← vertLt_iff]
  cases vertLt b a <;> simp

instance : IsTotal (Vec3 × Int) vertLe :=
  ⟨fun a b => by
    rw [vertLe_iff, vertLe_iff]
    by_cases h : keyLtP b a
    · exact Or.inr (keyLt_asymm h)
    · exact Or.inl h⟩

instance : IsTrans (Vec3 × Int) vertLe :=
  ⟨fun a b c hab hbc => by
    rw [vertLe_iff] at hab hbc ⊢
    intro hca
    rcases not_keyLt_cases hab with h | h
    · exact hbc (keyLt_trans hca h)
    · exact hbc (h ▸ hca)⟩

instance : IsAntisymm (Vec3 × Int) vertLe :=
  ⟨fun a b hab hba => keyLt_connex ((vertLe_iff b a).mp hba) ((vertLe_iff a b).mp hab)⟩

lemma sortPairs_perm (l : List (Vec3 × Int)) : (sortPairs l).Perm l :=
  List.perm_insertionSort vertLe l

lemma sortPairs_sorted (l : List (Vec3 × Int)) : List.Sorted vertLe (sortPairs l) :=
  List.sorted_insertionSort vertLe l

lemma sortPairs_strict (l : List (Vec3 × Int)) (h : l.Nodup) :
    List.Pairwise keyLtP (sortPairs l) := by
  have hnd : (sortPairs l).Nodup := ((sortPairs_perm l).nodup_iff).mpr h
  have hs : List.Pairwise vertLe (sortPairs l) := sortPairs_sorted l
  refine (hs.and hnd).imp ?_
  rintro a b ⟨hle, hne⟩
  rcases not_keyLt_cases ((vertLe_iff a b).mp hle) with h' | h'
  · exact h'
  · exact absurd h' hne

/-! ### List helper lemmas -/

lemma getD_eq_getElem {α : Type} (l : List α) (d : α) {i : Nat}
    (h : i < l.length) : l.getD i d = l[i] := by
  rw [List.getD_eq_getElem?_getD, List.getElem?_eq_getElem h]
  rfl

lemma getD_set_self {α : Type} (l : List α) (a d : α) {i : Nat}
    (h : i < l.length) : (l.set i a).getD i d = a := by
  rw [List.getD_eq_getElem?_getD, List.getElem?_set_self]
  · rfl
  · exact h

lemma getD_set_ne {α : Type} (l : List α) (a d : α) {i j : Nat}
    (h : i ≠ j) : (l.set i a).getD j d = l.getD j d := by
  rw [List.getD_eq_getElem?_getD, List.getElem?_set_ne h, ← List.getD_eq_getElem?_getD]

lemma getD_map_range {α : Type} (f : Nat → α) (d : α) {n i : Nat} (h : i < n) :
    ((List.range n).map f).getD i d = f i := by
  have hlen : i < ((List.range n).map f).length := by simpa using h
  rw [getD_eq_getElem _ _ hlen]
  simp

lemma getD_map {α β : Type} (f : α → β) (l : List α) (d : β) (d' : α) {i : Nat}
    (h : i < l.length) : (l.map f).getD i d = f (l.getD i d') := by
  have hlen : i < (l.map f).length := by simpa using h
  rw [getD_eq_getElem _ _ hlen, getD_eq_getElem _ _ h]
  simp

lemma getD_mem {α : Type} (l : List α) (d : α) {i : Nat} (h : i < l.length) :
    l.getD i d ∈ l := by
  rw [getD_eq_getElem _ _ h]
  exact List.getElem_mem h

lemma list_ext_getD {α : Type} (l₁ l₂ : List α) (d : α)
    (hl : l₁.length = l₂.length)
    (h : ∀ i < l₁.length, l₁.getD i d = l₂.getD i d) : l₁ = l₂ := by
  refine List.ext_getElem hl ?_
  intro i h₁ h₂
  have := h i h₁
  rwa [getD_eq_getElem _ _ h₁, getD_eq_getElem _ _ h₂] at this

lemma idxOf_cons_self {a : Nat} {t : List Nat} : idxOf a (a :: t) = 0 := by
  simp [idxOf]

lemma idxOf_cons_ne {a b : Nat} (t : List Nat) (h : b ≠ a) :
    idxOf a (b :: t) = idxOf a t + 1 := by
  simp [idxOf, h]

lemma idxOf_lt_length {a : Nat} {l : List Nat} (h : a ∈ l) :
    idxOf a l < l.length := by
  induction l with
  | nil => cases h
  | cons b t ih =>
    by_cases hb : b = a
    · subst hb; simp [idxOf_cons_self]
    · rcases List.mem_cons.mp h with h' | h'
      · exact absurd h'.symm hb
      · rw [idxOf_cons_ne t hb]
        simpa using ih h'

lemma getD_idxOf {a : Nat} {l : List Nat} (d : Nat) (h : a ∈ l) :
    l.getD (idxOf a l) d = a := by
  induction l with
  | nil => cases h
  | cons b t ih =>
    by_cases hb : b = a
    · subst hb; simp [idxOf_cons_self]
    · rcases List.mem_cons.mp h with h' | h'
      · exact absurd h'.symm hb
      · rw [idxOf_cons_ne t hb]
        simpa using ih h'

lemma idxOf_getD_nodup {l : List Nat} (d : Nat) (hnd : l.Nodup) {i : Nat}
    (h : i < l.length) : idxOf (l.getD i d) l = i := by
  induction l generalizing i with
  | nil => simp at h
  | cons b t ih =>
    rcases List.nodup_cons.mp hnd with ⟨hb, hnd'⟩
    cases i with
    | zero => simp [idxOf_cons_self]
    | succ i =>
      have hi : i < t.length := by simpa using h
      have hmem : t.getD i d ∈ t := getD_mem t d hi
      have hne : b ≠ t.getD i d := fun he => hb (he ▸ hmem)
      have : (b :: t).getD (i + 1) d = t.getD i d := rfl
      rw [this, idxOf_cons_ne t hne, ih hnd' hi]

lemma idxOf_range {n i : Nat} (h : i < n) : idxOf i (List.range n) = i := by
  have h' : i < (List.range n).length := by simpa using h
  have hg : (List.range n).getD i 0 = i := by
    rw [getD_eq_getElem _ _ h']
    simp
  have := idxOf_getD_nodup 0 (List.nodup_range n) h'
  rwa [hg] at this

lemma findIdx_le {α : Type} [Inhabited α] (p : α → Bool) (l : List α) {i : Nat}
    (h : i < l.length) (hp : p (l.getD i default) = true) : l.findIdx p ≤ i := by
  induction l generalizing i with
  | nil => simp at h
  | cons b t ih =>
    rw [List.findIdx_cons]
    cases hpb : p b with
    | true => simp
    | false =>
      cases i with
      | zero =>
        rw [List.getD_cons_zero, hpb] at hp
        cases hp
      | succ i =>
        have hi : i < t.length := by simpa using h
        have hpt : p (t.getD i default) = true := by
          simpa [List.getD_cons_succ] using hp
        simpa using ih hi hpt

lemma findIdx_getD_true {α : Type} [Inhabited α] (p : α → Bool) (l : List α)
    (h : l.findIdx p < l.length) : p (l.getD (l.findIdx p) default) = true := by
  rw [getD_eq_getElem _ _ h]
  exact List.findIdx_getElem

lemma not_true_of_lt_findIdx {α : Type} [Inhabited α] (p : α → Bool) (l : List α)
    {j : Nat} (hj : j < l.length) (h : j < l.findIdx p) :
    p (l.getD j default) = false := by
  by_contra hc
  have : p (l.getD j default) = true := by
    cases hpv : p (l.getD j default)
    · exact absurd hpv hc
    · rfl
  exact absurd (findIdx_le p l hj this) (by omega)

/-! ### The chaining walk -/

lemma walk_length (l : List (Vec3 × Int)) :
    ∀ (dm : List Int) (prev : Vec3 × Int) (hd : Bool),
      (walk dm prev hd l).1.length = dm.length := by
  induction l with
  | nil => intro dm prev hd; rfl
  | cons cur rest ih =>
    intro dm prev hd
    rw [walk]
    by_cases hc : cur.1 = prev.1
    · rw [if_pos hc, ih]
      exact dm.length_set _ _
    · rw [if_neg hc, ih]
      exact dm.length_set _ _

lemma walk_getD_not_mem (l : List (Vec3 × Int)) :
    ∀ (dm : List Int) (prev : Vec3 × Int) (hd : Bool) (j : Nat) (d : Int),
      (∀ q ∈ l, q.2.toNat ≠ j) →
      (walk dm prev hd l).1.getD j d = dm.getD j d := by
  induction l with
  | nil => intro dm prev hd j d _; rfl
  | cons cur rest ih =>
    intro dm prev hd j d hne
    have hcur : cur.2.toNat ≠ j := hne cur (List.mem_cons_self cur rest)
    have hrest : ∀ q ∈ rest, q.2.toNat ≠ j := fun q hq => hne q (List.mem_cons_of_mem cur hq)
    rw [walk]
    by_cases hc : cur.1 = prev.1
    · rw [if_pos hc, ih _ _ _ _ _ hrest, getD_set_ne _ _ _ hcur]
    · rw [if_neg hc, ih _ _ _ _ _ hrest, getD_set_ne _ _ _ hcur]

lemma walk_hd (l : List (Vec3 × Int)) :
    ∀ (dm : List Int) (prev : Vec3 × Int) (hd : Bool),
      (walk dm prev hd l).2 = (hd || adjacentDup (prev :: l)) := by
  induction l with
  | nil => intro dm prev hd; simp [walk, adjacentDup]
  | cons cur rest ih =>
    intro dm prev hd
    rw [walk]
    by_cases hc : cur.1 = prev.1
    · rw [if_pos hc, ih]
      have : adjacentDup (prev :: cur :: rest) =
          (decide (prev.1 = cur.1) || adjacentDup (cur :: rest)) := rfl
      rw [this, decide_eq_true hc.symm]
      simp
    · rw [if_neg hc, ih]
      have : adjacentDup (prev :: cur :: rest) =
          (decide (prev.1 = cur.1) || adjacentDup (cur :: rest)) := rfl
      rw [this, decide_eq_false (fun h => hc h.symm)]
      simp

lemma walk_getD_mem (l : List (Vec3 × Int)) :
    ∀ (dm : List Int) (prev : Vec3 × Int) (hd : Bool) (r : Int),
      List.Pairwise keyLtP (prev :: l) →
      (∀ q ∈ prev :: l, 0 ≤ q.2) →
      ((prev :: l).map (fun q => q.2)).Nodup →
      (∀ q ∈ prev :: l, q.2.toNat < dm.length) →
      dm.getD prev.2.toNat (-1) = r →
      ∀ q ∈ l, (walk dm prev hd l).1.getD q.2.toNat (-1) =
        (if q.1 = prev.1 then r else firstIdx q.1 l) := by
  induction l with
  | nil => intro dm prev hd r _ _ _ _ _ q hq; cases hq
  | cons cur rest ih =>
    intro dm prev hd r hpw hpos hnd hlen hr q hq
    have hpwt : List.Pairwise keyLtP (cur :: rest) := hpw.of_cons
    have hpost : ∀ q' ∈ cur :: rest, 0 ≤ q'.2 :=
      fun q' hq' => hpos q' (List.mem_cons_of_mem prev hq')
    have hndt : ((cur :: rest).map (fun q => q.2)).Nodup := by
      have : ((prev :: cur :: rest).map (fun q => q.2)) =
          prev.2 :: ((cur :: rest).map (fun q => q.2)) := rfl
      rw [this] at hnd
      exact (List.nodup_cons.mp hnd).2
    have hcur_pos : 0 ≤ cur.2 := hpost cur (List.mem_cons_self cur rest)
    have hcur_len : cur.2.toNat < dm.length :=
      hlen cur (List.mem_cons_of_mem prev (List.mem_cons_self cur rest))
    -- distinctness of index slots
    have hsnd_ne : ∀ q' ∈ rest, q'.2 ≠ cur.2 := by
      intro q' hq' he
      have : cur.2 ∈ (rest.map (fun q => q.2)) := by
        exact List.mem_map.mpr ⟨q', hq', he⟩
      have hhd : cur.2 ∉ (rest.map (fun q => q.2)) := by
        have h1 : ((cur :: rest).map (fun q => q.2)) =
            cur.2 :: (rest.map (fun q => q.2)) := rfl
        rw [h1] at hndt
        exact (List.nodup_cons.mp hndt).1
      exact hhd this
    have hslot_ne : ∀ q' ∈ rest, q'.2.toNat ≠ cur.2.toNat := by
      intro q' hq' he
      have h0 : 0 ≤ q'.2 := hpost q' (List.mem_cons_of_mem cur hq')
      exact hsnd_ne q' hq' (by omega)
    rw [walk]
    by_cases hc : cur.1 = prev.1
    · -- duplicate of the previous element: copy its map entry
      rw [if_pos hc]
      have hr' : (dm.set cur.2.toNat r).getD cur.2.toNat (-1) = r :=
        getD_set_self _ _ _ hcur_len
      have hrw : dm.getD prev.2.toNat (-1) = r := hr
      rw [hrw]
      have hlen' : ∀ q' ∈ cur :: rest, q'.2.toNat < (dm.set cur.2.toNat r).length := by
        intro q' hq'
        simp only [List.length_set]
        exact hlen q' (List.mem_cons_of_mem prev hq')
      have ihres := ih (dm.set cur.2.toNat r) cur true r hpwt hpost hndt hlen' hr'
      rcases List.mem_cons.mp hq with hqc | hqr
      · subst hqc
        rw [walk_getD_not_mem rest _ _ _ _ _ hslot_ne, hr']
        rw [if_pos hc]
      · have := ihres q hqr
        rw [this]
        by_cases hq1 : q.1 = prev.1
        · rw [if_pos hq1, if_pos (hc ▸ hq1)]
        · rw [if_neg hq1, if_neg (fun h => hq1 (h.trans hc))]
          have : firstIdx q.1 (cur :: rest) = firstIdx q.1 rest := by
            rw [firstIdx, if_neg (fun h => hq1 (h.symm.trans hc))]
          rw [this]
    · -- new position: maps to itself
      rw [if_neg hc]
      have hr' : (dm.set cur.2.toNat cur.2).getD cur.2.toNat (-1) = cur.2 :=
        getD_set_self _ _ _ hcur_len
      have hlen' : ∀ q' ∈ cur :: rest, q'.2.toNat < (dm.set cur.2.toNat cur.2).length := by
        intro q' hq'
        simp only [List.length_set]
        exact hlen q' (List.mem_cons_of_mem prev hq')
      have ihres := ih (dm.set cur.2.toNat cur.2) cur hd cur.2 hpwt hpost hndt hlen' hr'
      rcases List.mem_cons.mp hq with hqc | hqr
      · subst hqc
        rw [walk_getD_not_mem rest _ _ _ _ _ hslot_ne, hr']
        rw [if_neg hc]
        rw [firstIdx, if_pos rfl]
      · -- q is further down: its position cannot equal prev's
        have hq_ne_prev : q.1 ≠ prev.1 := by
          intro he
          have h1 : keyLtP prev cur := (List.pairwise_cons.mp hpw).1 cur
            (List.mem_cons_self cur rest)
          have h2 : keyLtP cur q := (List.pairwise_cons.mp hpwt).1 q hqr
          exact hc (keyLt_sandwich h1 h2 he.symm).symm
        have := ihres q hqr
        rw [this, if_neg hq_ne_prev]
        by_cases hq1 : q.1 = cur.1
        · rw [if_pos hq1]
          rw [firstIdx, if_pos hq1.symm]
        · rw [if_neg hq1]
          rw [firstIdx, if_neg (fun h => hq1 h.symm)]

/-! ### First occurrence within a sorted run -/

lemma firstIdx_mem {p : Vec3} {l : List (Vec3 × Int)} {j : Int}
    (h : (p, j) ∈ l) : (p, firstIdx p l) ∈ l := by
  induction l with
  | nil => cases h
  | cons q t ih =>
    by_cases hq : q.1 = p
    · rw [firstIdx, if_pos hq]
      have : (p, q.2) = q := by
        obtain ⟨q1, q2⟩ := q
        simp only at hq
        rw [hq]
      rw [this]
      exact List.mem_cons_self q t
    · rcases List.mem_cons.mp h with h' | h'
      · exact absurd (congrArg Prod.fst h'.symm) hq
      · rw [firstIdx, if_neg hq]
        exact List.mem_cons_of_mem q (ih h')

lemma firstIdx_le {p : Vec3} {l : List (Vec3 × Int)} {j : Int}
    (hpw : List.Pairwise keyLtP l) (h : (p, j) ∈ l) : firstIdx p l ≤ j := by
  induction l with
  | nil => cases h
  | cons q t ih =>
    rcases List.pairwise_cons.mp hpw with ⟨hhead, htail⟩
    by_cases hq : q.1 = p
    · rw [firstIdx, if_pos hq]
      rcases List.mem_cons.mp h with h' | h'
      · rw [← h']
      · have hk : keyLtP q (p, j) := hhead _ h'
        have : q.2 < j := (keyLt_snd hq).mp hk
        omega
    · rcases List.mem_cons.mp h with h' | h'
      · exact absurd (congrArg Prod.fst h'.symm) hq
      · rw [firstIdx, if_neg hq]
        exact ih htail h'

/-! ### Adjacent duplicates in a sorted list -/

lemma adjacentDup_exists {l : List (Vec3 × Int)}
    (hpw : List.Pairwise keyLtP l) (h : adjacentDup l = true) :
    ∃ a ∈ l, ∃ b ∈ l, a.1 = b.1 ∧ a.2 < b.2 := by
  induction l with
  | nil => cases h
  | cons a t ih =>
    match t, h with
    | b :: t', h =>
      rcases List.pairwise_cons.mp hpw with ⟨hhead, htail⟩
      have hcase : (decide (a.1 = b.1) || adjacentDup (b :: t')) = true := h
      rcases Bool.or_eq_true_iff.mp hcase with hc | hc
      · have hab : a.1 = b.1 := of_decide_eq_true hc
        have hk : keyLtP a b := hhead b (List.mem_cons_self b t')
        exact ⟨a, List.mem_cons_self a _, b,
          List.mem_cons_of_mem a (List.mem_cons_self b t'), hab, (keyLt_snd hab).mp hk⟩
      · obtain ⟨a', ha', b', hb', hab', hlt'⟩ := ih htail hc
        exact ⟨a', List.mem_cons_of_mem a ha', b', List.mem_cons_of_mem a hb', hab', hlt'⟩

lemma adjacentDup_of_two {l : List (Vec3 × Int)} {p : Vec3} {j₁ j₂ : Int}
    (hpw : List.Pairwise keyLtP l) (h₁ : (p, j₁) ∈ l) (h₂ : (p, j₂) ∈ l)
    (hne : j₁ ≠ j₂) : adjacentDup l = true := by
  induction l with
  | nil => cases h₁
  | cons a t ih =>
    rcases List.pairwise_cons.mp hpw with ⟨hhead, htail⟩
    have step : ∀ j j' : Int, (p, j) ∈ t → a = (p, j') → adjacentDup (a :: t) = true := by
      intro j j' hjt haj
      match t, hjt with
      | b :: t', hjt =>
        by_cases hb : b.1 = p
        · have : adjacentDup (a :: b :: t') =
              (decide (a.1 = b.1) || adjacentDup (b :: t')) := rfl
          rw [this, haj]
          simp [hb]
        · have hjt' : (p, j) ∈ t' := by
            rcases List.mem_cons.mp hjt with h' | h'
            · exact absurd (congrArg Prod.fst h'.symm) hb
            · exact h'
          have hk₁ : keyLtP a b := hhead b (List.mem_cons_self b t')
          have hk₂ : keyLtP b (p, j) :=
            (List.pairwise_cons.mp htail).1 _ hjt'
          have : a.1 = b.1 := keyLt_sandwich hk₁ hk₂ (by rw [haj])
          rw [haj] at this
          exact absurd this.symm hb
    rcases List.mem_cons.mp h₁ with h₁' | h₁' <;> rcases List.mem_cons.mp h₂ with h₂' | h₂'
    · rw [← h₂'] at h₁'
      have : j₁ = j₂ := congrArg Prod.snd h₁'
      exact absurd this hne
    · exact step j₂ j₁ h₂' h₁'.symm
    · exact step j₁ j₂ h₁' h₂'.symm
    · have hres := ih htail h₁' h₂'
      match t, hres with
      | b :: t', hres =>
        have : adjacentDup (a :: b :: t') =
            (decide (a.1 = b.1) || adjacentDup (b :: t')) := rfl
        rw [this, hres]
        simp

/-! ### The pair sequence -/

lemma mem_pairsOf {m : Mesh} {q : Vec3 × Int} :
    q ∈ pairsOf m ↔ ∃ i, i < m.vertices.length ∧ q = (posAt m i, (i : Int)) := by
  simp only [pairsOf, List.mem_map, List.mem_range, posAt]
  constructor
  · rintro ⟨i, hi, rfl⟩
    exact ⟨i, hi, rfl⟩
  · rintro ⟨i, hi, rfl⟩
    exact ⟨i, hi, rfl⟩

lemma pairsOf_nodup (m : Mesh) : (pairsOf m).Nodup := by
  refine (List.nodup_range m.vertices.length).map ?_
  intro i j h
  have : (i : Int) = (j : Int) := congrArg Prod.snd h
  omega

lemma pairsOf_length (m : Mesh) : (pairsOf m).length = m.vertices.length := by
  simp [pairsOf]

lemma pairsOf_snd_nodup (m : Mesh) :
    ((pairsOf m).map (fun q => q.2)).Nodup := by
  rw [pairsOf, List.map_map]
  refine (List.nodup_range m.vertices.length).map ?_
  intro i j h
  have : (i : Int) = (j : Int) := h
  omega

/-! ### The representative function -/

lemma rep_le {m : Mesh} {i : Nat} (h : i < m.vertices.length) : rep m i ≤ i := by
  apply findIdx_le _ _ h
  have : m.vertices.getD i default = posAt m i := rfl
  rw [this]
  simp

lemma rep_lt {m : Mesh} {i : Nat} (h : i < m.vertices.length) :
    rep m i < m.vertices.length := lt_of_le_of_lt (rep_le h) h

lemma posAt_rep {m : Mesh} {i : Nat} (h : i < m.vertices.length) :
    posAt m (rep m i) = posAt m i := by
  have hlt : rep m i < m.vertices.length := rep_lt h
  have := findIdx_getD_true (fun v => decide (v = posAt m i)) m.vertices hlt
  have h2 : m.vertices.getD (rep m i) default = posAt m i := of_decide_eq_true this
  exact h2

lemma rep_min {m : Mesh} {i : Nat} (h : i < m.vertices.length) :
    ∀ j < rep m i, posAt m j ≠ posAt m i := by
  intro j hj
  have hjn : j < m.vertices.length := lt_trans (lt_of_lt_of_le hj (rep_le h)) h
  have := not_true_of_lt_findIdx (fun v => decide (v = posAt m i)) m.vertices hjn hj
  exact of_decide_eq_false this

lemma rep_le_of_eq {m : Mesh} {i j : Nat} (hj : j < m.vertices.length)
    (he : posAt m j = posAt m i) : rep m i ≤ j := by
  apply findIdx_le _ _ hj
  have : m.vertices.getD j default = posAt m j := rfl
  rw [this, he]
  simp

lemma rep_congr {m : Mesh} {i j : Nat} (h : posAt m i = posAt m j) :
    rep m i = rep m j := by
  unfold rep
  rw [h]

lemma rep_least_unique {m : Mesh} {i k : Nat} (hi : i < m.vertices.length)
    (hk : k < m.vertices.length) (he : posAt m k = posAt m i)
    (hmin : ∀ j < m.vertices.length, posAt m j = posAt m i → k ≤ j) :
    rep m i = k := by
  have h1 : rep m i ≤ k := rep_le_of_eq hk he
  have h2 : k ≤ rep m i := hmin (rep m i) (rep_lt hi) (posAt_rep hi)
  omega

lemma rep_idem {m : Mesh} {i : Nat} (h : i < m.vertices.length) :
    rep m (rep m i) = rep m i := by
  have := rep_congr (m := m) (posAt_rep h)
  omega

lemma rep_fix_of_min {m : Mesh} {i : Nat} (hi : i < m.vertices.length)
    (hmin : ∀ j < i, posAt m j ≠ posAt m i) : rep m i = i := by
  have h1 : rep m i ≤ i := rep_le hi
  rcases Nat.lt_or_ge (rep m i) i with hlt | hge
  · exact absurd (posAt_rep hi) (hmin _ hlt)
  · omega

lemma mem_repsL {m : Mesh} {i : Nat} :
    i ∈ repsL m ↔ i < m.vertices.length ∧ rep m i = i := by
  simp [repsL, List.mem_filter]

lemma repsL_nodup (m : Mesh) : (repsL m).Nodup :=
  (List.nodup_range m.vertices.length).filter _

lemma repsL_length_le (m : Mesh) : (repsL m).length ≤ m.vertices.length := by
  have := List.length_filter_le (fun i => decide (rep m i = i))
    (List.range m.vertices.length)
  simpa [repsL] using this

/-! ### The closed form of `findDuplicates` -/

theorem findDuplicates_spec (m : Mesh) (hn : 0 < m.vertices.length) :
    ∃ hd, findDuplicates m = some (hd, dmapSpec m) ∧
      (hd = false ↔ ∀ i < m.vertices.length, rep m i = i) := by
  have hperm : (sortPairs (pairsOf m)).Perm (pairsOf m) := sortPairs_perm _
  have hpw : List.Pairwise keyLtP (sortPairs (pairsOf m)) :=
    sortPairs_strict _ (pairsOf_nodup m)
  have hmem : ∀ q, q ∈ sortPairs (pairsOf m) ↔
      ∃ i, i < m.vertices.length ∧ q = (posAt m i, (i : Int)) := by
    intro q
    rw [hperm.mem_iff]
    exact mem_pairsOf
  have hlen_sorted : (sortPairs (pairsOf m)).length = m.vertices.length := by
    rw [hperm.length_eq, pairsOf_length]
  obtain ⟨v0, rest, hsr⟩ : ∃ v0 rest, sortPairs (pairsOf m) = v0 :: rest := by
    cases hs : sortPairs (pairsOf m) with
    | nil => rw [hs] at hlen_sorted; simp at hlen_sorted; omega
    | cons a t => exact ⟨a, t, rfl⟩
  obtain ⟨i0, hi0, hv0eq⟩ := (hmem v0).mp (hsr ▸ List.mem_cons_self v0 rest)
  have hv0fst : v0.1 = posAt m i0 := by rw [hv0eq]
  have hv0snd : v0.2 = (i0 : Int) := by rw [hv0eq]
  have hpos : ∀ q ∈ sortPairs (pairsOf m), 0 ≤ q.2 := by
    intro q hq
    obtain ⟨i, _, rfl⟩ := (hmem q).mp hq
    simp
  have hsnd_nodup : ((sortPairs (pairsOf m)).map (fun q => q.2)).Nodup :=
    ((hperm.map (fun q => q.2)).nodup_iff).mpr (pairsOf_snd_nodup m)
  have hdm0len : ((List.replicate m.vertices.length (-1 : Int)).set v0.2.toNat v0.2).length
      = m.vertices.length := by
    simp
  have hbound : ∀ q ∈ sortPairs (pairsOf m),
      q.2.toNat < ((List.replicate m.vertices.length (-1 : Int)).set v0.2.toNat v0.2).length := by
    intro q hq
    obtain ⟨i, hi, rfl⟩ := (hmem q).mp hq
    rw [hdm0len]
    simpa using hi
  have hv0bound : v0.2.toNat < m.vertices.length := by
    rw [hv0snd]
    simpa using hi0
  have hdm0v0 : ((List.replicate m.vertices.length (-1 : Int)).set v0.2.toNat v0.2).getD
      v0.2.toNat (-1) = v0.2 := by
    apply getD_set_self
    simpa using hv0bound
  have hrest_slot : ∀ q ∈ rest, q.2.toNat ≠ v0.2.toNat := by
    intro q hq he
    have hnodup' : (v0.2 :: rest.map (fun q => q.2)).Nodup := by
      have : (sortPairs (pairsOf m)).map (fun q => q.2) = v0.2 :: rest.map (fun q => q.2) := by
        rw [hsr]; rfl
      rwa [this] at hsnd_nodup
    have hv0notin : v0.2 ∉ rest.map (fun q => q.2) := (List.nodup_cons.mp hnodup').1
    have hq0 : 0 ≤ q.2 := hpos q (hsr ▸ List.mem_cons_of_mem v0 hq)
    have hv00 : 0 ≤ v0.2 := hpos v0 (hsr ▸ List.mem_cons_self v0 rest)
    have : q.2 = v0.2 := by omega
    exact hv0notin (List.mem_map.mpr ⟨q, hq, this⟩)
  have hfd : findDuplicates m = some ((walk ((List.replicate m.vertices.length (-1 : Int)).set
      v0.2.toNat v0.2) v0 false rest).2,
      (walk ((List.replicate m.vertices.length (-1 : Int)).set v0.2.toNat v0.2) v0 false rest).1) := by
    rw [findDuplicates, hsr]
    rfl
  -- the map entry of every vertex is its representative
  have hentry : ∀ i, i < m.vertices.length →
      (walk ((List.replicate m.vertices.length (-1 : Int)).set v0.2.toNat v0.2)
        v0 false rest).1.getD i (-1) = (rep m i : Int) := by
    intro i hi
    have hqi : (posAt m i, (i : Int)) ∈ sortPairs (pairsOf m) :=
      (hmem _).mpr ⟨i, hi, rfl⟩
    rw [hsr] at hqi
    rcases List.mem_cons.mp hqi with hqv0 | hqrest
    · -- vertex i is the first sorted element
      have hieq : (i : Int) = v0.2 := congrArg Prod.snd hqv0
      have hislot : i = v0.2.toNat := by omega
      have hfsteq : posAt m i = v0.1 := congrArg Prod.fst hqv0
      have hval : (walk ((List.replicate m.vertices.length (-1 : Int)).set v0.2.toNat v0.2)
          v0 false rest).1.getD i (-1) = v0.2 := by
        rw [hislot, walk_getD_not_mem rest _ _ _ _ _ hrest_slot, hdm0v0]
      have hrepi : rep m i = i := by
        apply rep_fix_of_min hi
        intro j hji he
        have hjn : j < m.vertices.length := lt_trans hji hi
        have hqj : (posAt m j, (j : Int)) ∈ sortPairs (pairsOf m) :=
          (hmem _).mpr ⟨j, hjn, rfl⟩
        rw [hsr] at hqj
        rcases List.mem_cons.mp hqj with hj0 | hjr
        · have : (j : Int) = v0.2 := congrArg Prod.snd hj0
          omega
        · have hk : keyLtP v0 (posAt m j, (j : Int)) :=
            (List.pairwise_cons.mp (hsr ▸ hpw)).1 _ hjr
          have hfst : v0.1 = posAt m j := by rw [he, hfsteq]
          have : v0.2 < (j : Int) := (keyLt_snd hfst).mp hk
          omega
      rw [hval, hrepi, hieq]
    · -- vertex i appears after the first sorted element
      have hwres := walk_getD_mem rest
        ((List.replicate m.vertices.length (-1 : Int)).set v0.2.toNat v0.2)
        v0 false v0.2 (hsr ▸ hpw) (fun q hq => hpos q (hsr ▸ hq))
        (by
          have : (sortPairs (pairsOf m)).map (fun q => q.2) =
              (v0 :: rest).map (fun q => q.2) := by rw [hsr]
          rw [this] at hsnd_nodup
          exact hsnd_nodup)
        (fun q hq => hbound q (hsr ▸ hq)) hdm0v0
        (posAt m i, (i : Int)) hqrest
      have hslot : ((posAt m i, (i : Int)) : Vec3 × Int).2.toNat = i := by simp
      rw [hslot] at hwres
      rw [hwres]
      by_cases hfst : posAt m i = v0.1
      · -- same position as the first element: representative is i0
        rw [if_pos hfst]
        have hrepi : rep m i = i0 := by
          apply rep_least_unique hi hi0
          · rw [← hv0fst, ← hfst]
          · intro j hjn he
            have hqj : (posAt m j, (j : Int)) ∈ sortPairs (pairsOf m) :=
              (hmem _).mpr ⟨j, hjn, rfl⟩
            rw [hsr] at hqj
            rcases List.mem_cons.mp hqj with hj0 | hjr
            · have : (j : Int) = v0.2 := congrArg Prod.snd hj0
              omega
            · have hk : keyLtP v0 (posAt m j, (j : Int)) :=
                (List.pairwise_cons.mp (hsr ▸ hpw)).1 _ hjr
              have hfst' : v0.1 = posAt m j := by rw [he, hfst]
              have : v0.2 < (j : Int) := (keyLt_snd hfst').mp hk
              omega
        rw [hrepi, hv0snd]
      · -- new position: representative is the first element of its run
        rw [if_neg hfst]
        have hwit : ((posAt m i : Vec3), (i : Int)) ∈ rest := hqrest
        have hfmem : (posAt m i, firstIdx (posAt m i) rest) ∈ rest := firstIdx_mem hwit
        have hfsorted : (posAt m i, firstIdx (posAt m i) rest) ∈ sortPairs (pairsOf m) :=
          hsr ▸ List.mem_cons_of_mem v0 hfmem
        obtain ⟨k, hk, hkeq⟩ := (hmem _).mp hfsorted
        have hkfst : posAt m i = posAt m k := congrArg Prod.fst hkeq
        have hksnd : firstIdx (posAt m i) rest = (k : Int) := congrArg Prod.snd hkeq
        have hrepi : rep m i = k := by
          apply rep_least_unique hi hk hkfst.symm
          intro j hjn he
          have hqj : (posAt m j, (j : Int)) ∈ sortPairs (pairsOf m) :=
            (hmem _).mpr ⟨j, hjn, rfl⟩
          rw [hsr] at hqj
          rcases List.mem_cons.mp hqj with hj0 | hjr
          · have : v0.1 = posAt m j := by
              rw [← hj0]
            rw [this] at hfst
            exact absurd he.symm hfst
          · have hpwrest : List.Pairwise keyLtP rest := (hsr ▸ hpw).of_cons
            have hqj' : ((posAt m i : Vec3), (j : Int)) ∈ rest := by
              rw [← he]
              exact hjr
            have := firstIdx_le hpwrest hqj'
            rw [hksnd] at this
            omega
        rw [hrepi, hksnd]
  refine ⟨(walk ((List.replicate m.vertices.length (-1 : Int)).set v0.2.toNat v0.2)
      v0 false rest).2, ?_, ?_⟩
  · rw [hfd]
    have hdmeq : (walk ((List.replicate m.vertices.length (-1 : Int)).set v0.2.toNat v0.2)
        v0 false rest).1 = dmapSpec m := by
      apply list_ext_getD _ _ (-1)
      · rw [walk_length, hdm0len, dmapSpec]
        simp
      · intro i hi
        have hi' : i < m.vertices.length := by
          rwa [walk_length, hdm0len] at hi
        rw [hentry i hi', dmapSpec, getD_map_range _ _ hi']
    rw [hdmeq]
  · rw [walk_hd]
    have hadj : adjacentDup (v0 :: rest) = adjacentDup (sortPairs (pairsOf m)) := by
      rw [hsr]
    rw [Bool.false_or, hadj]
    constructor
    · intro hfalse i hi
      by_contra hne
      have hrlt : rep m i < i := by
        have := rep_le hi
        omega
      have hrn : rep m i < m.vertices.length := rep_lt hi
      have hq1 : (posAt m i, ((rep m i : Nat) : Int)) ∈ sortPairs (pairsOf m) := by
        refine (hmem _).mpr ⟨rep m i, hrn, ?_⟩
        rw [posAt_rep hi]
      have hq2 : (posAt m i, (i : Int)) ∈ sortPairs (pairsOf m) :=
        (hmem _).mpr ⟨i, hi, rfl⟩
      have := adjacentDup_of_two hpw hq1 hq2 (by omega)
      rw [this] at hfalse
      cases hfalse
    · intro hall
      by_contra htrue
      have htrue' : adjacentDup (sortPairs (pairsOf m)) = true := by
        cases hv : adjacentDup (sortPairs (pairsOf m))
        · exact absurd hv htrue
        · rfl
      obtain ⟨a, ha, b, hb, hab, hlt⟩ := adjacentDup_exists hpw htrue'
      obtain ⟨ia, hia, rfl⟩ := (hmem a).mp ha
      obtain ⟨ib, hib, rfl⟩ := (hmem b).mp hb
      have hfst : posAt m ia = posAt m ib := hab
      have hialt : ia < ib := by
        have : (ia : Int) < (ib : Int) := hlt
        omega
      have h1 : rep m ib ≤ ia := rep_le_of_eq hia hfst
      have h2 : rep m ib = ib := hall ib hib
      omega

/-! ### The compaction scan -/

lemma compact_fold_spec (verts norms : List Vec3) (dm : List Int) :
    ∀ (l : List Nat) (ni : List Int) (uv un : List Vec3),
      l.Nodup → (∀ i ∈ l, i < ni.length) →
      ((l.foldl (compactStep verts norms dm) (ni, uv, un)).2.1 =
          uv ++ (l.filter (fun i => decide (dm.getD i (-1) = (i : Int)))).map
            (fun i => verts.getD i vec3def)) ∧
      ((l.foldl (compactStep verts norms dm) (ni, uv, un)).2.2 =
          un ++ (l.filter (fun i => decide (dm.getD i (-1) = (i : Int)))).map
            (fun i => norms.getD i vec3def)) ∧
      ((l.foldl (compactStep verts norms dm) (ni, uv, un)).1.length = ni.length) ∧
      (∀ j, j ∉ l →
        (l.foldl (compactStep verts norms dm) (ni, uv, un)).1.getD j (-1) =
          ni.getD j (-1)) ∧
      (∀ j ∈ l, dm.getD j (-1) = (j : Int) →
        (l.foldl (compactStep verts norms dm) (ni, uv, un)).1.getD j (-1) =
          (((uv.length + idxOf j (l.filter (fun i => decide (dm.getD i (-1) = (i : Int)))) :
            Nat)) : Int)) ∧
      (∀ j ∈ l, ¬ dm.getD j (-1) = (j : Int) →
        (l.foldl (compactStep verts norms dm) (ni, uv, un)).1.getD j (-1) =
          ni.getD j (-1)) := by
  intro l
  induction l with
  | nil =>
    intro ni uv un _ _
    refine ⟨by simp, by simp, rfl, fun j _ => rfl, fun j hj => absurd hj (by simp),
      fun j hj => absurd hj (by simp)⟩
  | cons i t ih =>
    intro ni uv un hnd hbnd
    rcases List.nodup_cons.mp hnd with ⟨hinott, hndt⟩
    have hibnd : i < ni.length := hbnd i (List.mem_cons_self i t)
    by_cases hrep : dm.getD i (-1) = (i : Int)
    · -- vertex i is its own representative: it is appended
      have hstep : compactStep verts norms dm (ni, uv, un) i =
          (ni.set i ((uv.length : Nat) : Int), uv ++ [verts.getD i vec3def],
            un ++ [norms.getD i vec3def]) := by
        rw [compactStep, if_pos hrep]
      have hfold : (i :: t).foldl (compactStep verts norms dm) (ni, uv, un) =
          t.foldl (compactStep verts norms dm)
            (ni.set i ((uv.length : Nat) : Int), uv ++ [verts.getD i vec3def],
              un ++ [norms.getD i vec3def]) := by
        rw [List.foldl_cons, hstep]
      have hbnd' : ∀ i' ∈ t, i' < (ni.set i ((uv.length : Nat) : Int)).length := by
        intro i' hi'
        rw [List.length_set]
        exact hbnd i' (List.mem_cons_of_mem i hi')
      obtain ⟨huv, hun, hlen, hnot, hrepm, hnonrep⟩ :=
        ih (ni.set i ((uv.length : Nat) : Int)) (uv ++ [verts.getD i vec3def])
          (un ++ [norms.getD i vec3def]) hndt hbnd'
      have hfilter : (i :: t).filter (fun i => decide (dm.getD i (-1) = (i : Int))) =
          i :: t.filter (fun i => decide (dm.getD i (-1) = (i : Int))) :=
        List.filter_cons_of_pos (by simpa using hrep)
      refine ⟨?_, ?_, ?_, ?_, ?_, ?_⟩
      · rw [hfold, huv, hfilter]
        simp
      · rw [hfold, hun, hfilter]
        simp
      · rw [hfold, hlen, List.length_set]
      · intro j hj
        have hjne : i ≠ j := fun he => hj (he ▸ List.mem_cons_self i t)
        have hjnt : j ∉ t := fun hc => hj (List.mem_cons_of_mem i hc)
        rw [hfold, hnot j hjnt, getD_set_ne _ _ _ hjne]
      · intro j hj hjrep
        rw [hfilter]
        rcases List.mem_cons.mp hj with hje | hjt
        · subst hje
          rw [hfold, hnot j hinott, getD_set_self _ _ _ hibnd, idxOf_cons_self]
          simp
        · have hjne : i ≠ j := fun he => hinott (he ▸ hjt)
          rw [hfold, hrepm j hjt hjrep, idxOf_cons_ne _ hjne]
          simp
          omega
      · intro j hj hjrep
        rcases List.mem_cons.mp hj with hje | hjt
        · exact absurd (hje ▸ hrep) hjrep
        · have hjne : i ≠ j := fun he => hinott (he ▸ hjt)
          rw [hfold, hnonrep j hjt hjrep, getD_set_ne _ _ _ hjne]
    · -- vertex i is a duplicate: the state is unchanged
      have hstep : compactStep verts norms dm (ni, uv, un) i = (ni, uv, un) := by
        rw [compactStep, if_neg hrep]
      have hfold : (i :: t).foldl (compactStep verts norms dm) (ni, uv, un) =
          t.foldl (compactStep verts norms dm) (ni, uv, un) := by
        rw [List.foldl_cons, hstep]
      obtain ⟨huv, hun, hlen, hnot, hrepm, hnonrep⟩ :=
        ih ni uv un hndt (fun i' hi' => hbnd i' (List.mem_cons_of_mem i hi'))
      have hfilter : (i :: t).filter (fun i => decide (dm.getD i (-1) = (i : Int))) =
          t.filter (fun i => decide (dm.getD i (-1) = (i : Int))) :=
        List.filter_cons_of_neg (by simpa using hrep)
      refine ⟨?_, ?_, ?_, ?_, ?_, ?_⟩
      · rw [hfold, huv, hfilter]
      · rw [hfold, hun, hfilter]
      · rw [hfold, hlen]
      · intro j hj
        exact hfold ▸ hnot j (fun hc => hj (List.mem_cons_of_mem i hc))
      · intro j hj hjrep
        rcases List.mem_cons.mp hj with hje | hjt
        · exact absurd (hje ▸ hjrep) hrep
        · rw [hfold, hrepm j hjt hjrep, hfilter]
      · intro j hj hjrep
        rcases List.mem_cons.mp hj with hje | hjt
        · subst hje
          rw [hfold, hnot j hinott]
        · rw [hfold, hnonrep j hjt hjrep]

/-! ### The closed form of `removeDuplicates` -/

theorem removeDuplicates_spec (m : Mesh) (hn : 0 < m.vertices.length) (hwf : m.wf) :
    removeDuplicates m = some (compactMesh m, remapSpec m) := by
  obtain ⟨hd, hfd, _⟩ := findDuplicates_spec m hn
  have hdmgetD : ∀ i, i < m.vertices.length →
      (dmapSpec m).getD i (-1) = ((rep m i : Nat) : Int) :=
    fun i hi => getD_map_range _ _ hi
  have hfiltereq : (List.range m.vertices.length).filter
      (fun i => decide ((dmapSpec m).getD i (-1) = (i : Int))) = repsL m := by
    rw [repsL]
    apply List.filter_congr
    intro i hi
    rw [List.mem_range] at hi
    rw [hdmgetD i hi]
    simp
  obtain ⟨huv, hun, hlen, hnot, hrepm, hnonrep⟩ :=
    compact_fold_spec m.vertices m.normals (dmapSpec m) (List.range m.vertices.length)
      (List.replicate m.vertices.length (-1 : Int)) [] []
      (List.nodup_range _)
      (by intro i hi; rw [List.length_replicate]; simpa using hi)
  have hni : ∀ a, a < m.vertices.length →
      ((List.range m.vertices.length).foldl
        (compactStep m.vertices m.normals (dmapSpec m))
        (List.replicate m.vertices.length (-1 : Int), [], [])).1.getD
          ((dmapSpec m).getD a (-1)).toNat (-1) = ((compIdx m a : Nat) : Int) := by
    intro a ha
    rw [hdmgetD a ha, Int.toNat_natCast]
    have hra : rep m a ∈ List.range m.vertices.length := by
      rw [List.mem_range]
      exact rep_lt ha
    have hprd : (dmapSpec m).getD (rep m a) (-1) = ((rep m a : Nat) : Int) := by
      rw [hdmgetD _ (rep_lt ha), rep_idem ha]
    have h2 := hrepm (rep m a) hra hprd
    rw [hfiltereq] at h2
    rw [h2]
    simp [compIdx]
  simp only [removeDuplicates, hfd]
  refine congrArg some ?_
  have hverts : ((List.range m.vertices.length).foldl
      (compactStep m.vertices m.normals (dmapSpec m))
      (List.replicate m.vertices.length (-1 : Int), [], [])).2.1 =
      (repsL m).map (posAt m) := by
    rw [huv, hfiltereq]
    rfl
  have hnorms : ((List.range m.vertices.length).foldl
      (compactStep m.vertices m.normals (dmapSpec m))
      (List.replicate m.vertices.length (-1 : Int), [], [])).2.2 =
      (repsL m).map (nrmAt m) := by
    rw [hun, hfiltereq]
    rfl
  have htri : m.indices.map (fun t =>
      ((((List.range m.vertices.length).foldl
          (compactStep m.vertices m.normals (dmapSpec m))
          (List.replicate m.vertices.length (-1 : Int), [], [])).1.getD
            ((dmapSpec m).getD t.1 (-1)).toNat (-1)).toNat,
        ((((List.range m.vertices.length).foldl
          (compactStep m.vertices m.normals (dmapSpec m))
          (List.replicate m.vertices.length (-1 : Int), [], [])).1.getD
            ((dmapSpec m).getD t.2.1 (-1)).toNat (-1)).toNat),
        ((((List.range m.vertices.length).foldl
          (compactStep m.vertices m.normals (dmapSpec m))
          (List.replicate m.vertices.length (-1 : Int), [], [])).1.getD
            ((dmapSpec m).getD t.2.2 (-1)).toNat (-1)).toNat))) =
      m.indices.map (fun t => (compIdx m t.1, compIdx m t.2.1, compIdx m t.2.2)) := by
    apply List.map_congr_left
    intro t ht
    obtain ⟨h1, h2, h3⟩ := hwf.2 t ht
    rw [hni t.1 h1, hni t.2.1 h2, hni t.2.2 h3]
    simp
  have hvm : (List.range m.vertices.length).map (fun i =>
      ((List.range m.vertices.length).foldl
        (compactStep m.vertices m.normals (dmapSpec m))
        (List.replicate m.vertices.length (-1 : Int), [], [])).1.getD
          ((dmapSpec m).getD i (-1)).toNat (-1)) = remapSpec m := by
    rw [remapSpec]
    apply List.map_congr_left
    intro i hi
    rw [List.mem_range] at hi
    exact hni i hi
  rw [compactMesh]
  refine Prod.ext ?_ ?_
  · simp only [Mesh.mk.injEq]
    exact ⟨hverts, hnorms, htri⟩
  · exact hvm

/-! ### Consequences used by the individual claims -/

lemma pairsOf_nil {m : Mesh} (h : m.vertices.length = 0) : pairsOf m = [] := by
  rw [pairsOf, h]
  rfl

lemma findDuplicates_nil {m : Mesh} (h : m.vertices.length = 0) :
    findDuplicates m = none := by
  rw [findDuplicates, pairsOf_nil h]
  rfl

lemma removeDuplicates_nil {m : Mesh} (h : m.vertices.length = 0) :
    removeDuplicates m = none := by
  rw [removeDuplicates, findDuplicates_nil h]

lemma removeDuplicates_inv {m m' : Mesh} {vm : List Int} (hwf : m.wf)
    (h : removeDuplicates m = some (m', vm)) :
    0 < m.vertices.length ∧ m' = compactMesh m ∧ vm = remapSpec m := by
  have hn : 0 < m.vertices.length := by
    by_contra hc
    have h0 : m.vertices.length = 0 := by omega
    rw [removeDuplicates_nil h0] at h
    cases h
  have := removeDuplicates_spec m hn hwf
  rw [this] at h
  simp only [Option.some.injEq, Prod.mk.injEq] at h
  exact ⟨hn, h.1.symm, h.2.symm⟩

lemma compIdx_lt {m : Mesh} {i : Nat} (hi : i < m.vertices.length) :
    compIdx m i < (repsL m).length :=
  idxOf_lt_length (mem_repsL.mpr ⟨rep_lt hi, rep_idem hi⟩)

lemma repsL_getD_compIdx {m : Mesh} {i : Nat} (hi : i < m.vertices.length) :
    (repsL m).getD (compIdx m i) 0 = rep m i :=
  getD_idxOf 0 (mem_repsL.mpr ⟨rep_lt hi, rep_idem hi⟩)

lemma remapSpec_getD {m : Mesh} {i : Nat} (hi : i < m.vertices.length) :
    (remapSpec m).getD i (-1) = ((compIdx m i : Nat) : Int) :=
  getD_map_range _ _ hi

lemma compactMesh_vertices_length (m : Mesh) :
    (compactMesh m).vertices.length = (repsL m).length := by
  simp [compactMesh]

lemma compactMesh_normals_length (m : Mesh) :
    (compactMesh m).normals.length = (repsL m).length := by
  simp [compactMesh]

lemma repsL_length_eq_iff (m : Mesh) :
    (repsL m).length = m.vertices.length ↔
      ∀ i < m.vertices.length, rep m i = i := by
  constructor
  · intro h
    have hsub : (repsL m).Sublist (List.range m.vertices.length) :=
      List.filter_sublist _
    have heq : repsL m = List.range m.vertices.length :=
      hsub.eq_of_length (by rw [h, List.length_range])
    intro i hi
    have : i ∈ repsL m := by
      rw [heq, List.mem_range]
      exact hi
    exact (mem_repsL.mp this).2
  · intro hall
    have : repsL m = List.range m.vertices.length := by
      rw [repsL]
      apply List.filter_eq_self.mpr
      intro i hi
      rw [List.mem_range] at hi
      simpa using hall i hi
    rw [this, List.length_range]

lemma repsL_pos {m : Mesh} (hn : 0 < m.vertices.length) : 0 < (repsL m).length := by
  have h0 : rep m 0 = 0 := by
    have := rep_le hn
    omega
  have hmem : 0 ∈ repsL m := mem_repsL.mpr ⟨hn, h0⟩
  exact List.length_pos.mpr (List.ne_nil_of_mem hmem)

lemma compactMesh_posAt {m : Mesh} {k : Nat} (hk : k < (repsL m).length) :
    posAt (compactMesh m) k = posAt m ((repsL m).getD k 0) := by
  rw [posAt, compactMesh]
  exact getD_map (posAt m) (repsL m) vec3def 0 hk

lemma compactMesh_nrmAt {m : Mesh} {k : Nat} (hk : k < (repsL m).length) :
    nrmAt (compactMesh m) k = nrmAt m ((repsL m).getD k 0) := by
  rw [nrmAt, compactMesh]
  exact getD_map (nrmAt m) (repsL m) vec3def 0 hk

lemma compactMesh_pos_inj {m : Mesh} {k₁ k₂ : Nat}
    (h₁ : k₁ < (repsL m).length) (h₂ : k₂ < (repsL m).length)
    (he : posAt (compactMesh m) k₁ = posAt (compactMesh m) k₂) : k₁ = k₂ := by
  rw [compactMesh_posAt h₁, compactMesh_posAt h₂] at he
  have hm₁ : (repsL m).getD k₁ 0 ∈ repsL m := getD_mem _ 0 h₁
  have hm₂ : (repsL m).getD k₂ 0 ∈ repsL m := getD_mem _ 0 h₂
  obtain ⟨hn₁, hf₁⟩ := mem_repsL.mp hm₁
  obtain ⟨hn₂, hf₂⟩ := mem_repsL.mp hm₂
  have : (repsL m).getD k₁ 0 = (repsL m).getD k₂ 0 := by
    have := rep_congr (m := m) he
    omega
  have e₁ := idxOf_getD_nodup 0 (repsL_nodup m) h₁
  have e₂ := idxOf_getD_nodup 0 (repsL_nodup m) h₂
  rw [← e₁, ← e₂, this]

lemma compactMesh_rep_id {m : Mesh} {k : Nat}
    (hk : k < (compactMesh m).vertices.length) : rep (compactMesh m) k = k := by
  have hk' : k < (repsL m).length := by
    rwa [compactMesh_vertices_length] at hk
  apply rep_fix_of_min hk
  intro j hj he
  have hj' : j < (repsL m).length := by omega
  have := compactMesh_pos_inj hj' hk' he
  omega

lemma compactMesh_wf {m : Mesh} (hwf : m.wf) : (compactMesh m).wf := by
  constructor
  · rw [compactMesh_vertices_length, compactMesh_normals_length]
  · intro t ht
    rw [compactMesh] at ht
    simp only [List.mem_map] at ht
    obtain ⟨t0, ht0, rfl⟩ := ht
    obtain ⟨hb1, hb2, hb3⟩ := hwf.2 t0 ht0
    rw [compactMesh_vertices_length]
    exact ⟨compIdx_lt hb1, compIdx_lt hb2, compIdx_lt hb3⟩

lemma repsL_compactMesh (m : Mesh) :
    repsL (compactMesh m) = List.range (compactMesh m).vertices.length := by
  rw [repsL]
  apply List.filter_eq_self.mpr
  intro i hi
  rw [List.mem_range] at hi
  simpa using compactMesh_rep_id hi

lemma compIdx_compactMesh {m : Mesh} {i : Nat}
    (hi : i < (compactMesh m).vertices.length) : compIdx (compactMesh m) i = i := by
  rw [compIdx, compactMesh_rep_id hi, repsL_compactMesh]
  exact idxOf_range hi

lemma map_range_getD_id {α : Type} (l : List α) (d : α) :
    (List.range l.length).map (fun i => l.getD i d) = l := by
  apply list_ext_getD _ _ d
  · simp
  · intro i hi
    simp only [List.length_map, List.length_range] at hi
    rw [getD_map_range _ _ hi]

lemma mesh_eq_of_parts {a b : Mesh} (h1 : a.vertices = b.vertices)
    (h2 : a.normals = b.normals) (h3 : a.indices = b.indices) : a = b := by
  cases a
  cases b
  simp_all

lemma compactMesh_compactMesh {m : Mesh} (hwf : m.wf) :
    compactMesh (compactMesh m) = compactMesh m := by
  have hcwf : (compactMesh m).wf := compactMesh_wf hwf
  have hnl : (compactMesh m).normals.length = (compactMesh m).vertices.length := hcwf.1
  apply mesh_eq_of_parts
  · show (repsL (compactMesh m)).map (posAt (compactMesh m)) = (compactMesh m).vertices
    rw [repsL_compactMesh]
    have h1 : posAt (compactMesh m) =
        fun i => (compactMesh m).vertices.getD i vec3def := rfl
    rw [h1]
    exact map_range_getD_id (compactMesh m).vertices vec3def
  · show (repsL (compactMesh m)).map (nrmAt (compactMesh m)) = (compactMesh m).normals
    rw [repsL_compactMesh]
    have h1 : nrmAt (compactMesh m) =
        fun i => (compactMesh m).normals.getD i vec3def := rfl
    rw [h1, ← hnl]
    exact map_range_getD_id (compactMesh m).normals vec3def
  · show (compactMesh m).indices.map (fun t =>
        (compIdx (compactMesh m) t.1, compIdx (compactMesh m) t.2.1,
          compIdx (compactMesh m) t.2.2)) = (compactMesh m).indices
    have hcongr := List.map_congr_left (l := (compactMesh m).indices)
      (f := fun t => (compIdx (compactMesh m) t.1, compIdx (compactMesh m) t.2.1,
        compIdx (compactMesh m) t.2.2)) (g := fun t => t) ?_
    · rw [hcongr, List.map_id']
    · intro t ht
      obtain ⟨h1, h2, h3⟩ := hcwf.2 t ht
      show (compIdx (compactMesh m) t.1, compIdx (compactMesh m) t.2.1,
        compIdx (compactMesh m) t.2.2) = t
      rw [compIdx_compactMesh h1, compIdx_compactMesh h2, compIdx_compactMesh h3]

lemma remapSpec_compactMesh (m : Mesh) :
    remapSpec (compactMesh m) =
      (List.range (compactMesh m).vertices.length).map (fun i => ((i : Nat) : Int)) := by
  rw [remapSpec]
  apply List.map_congr_left
  intro i hi
  rw [List.mem_range] at hi
  rw [compIdx_compactMesh hi]

/-! ### The claims -/

/-- C1: the spec requires a zero-vertex mesh to be a defined zero-result case
(`hasDuplicates = false`, empty map, no out-of-range access), but the code
unconditionally reads `vertices[0]`, which is out of range for an empty
vertex vector; the embedding records that access as `none`. -/
theorem C1_empty_mesh_faults (nrm : List Vec3) (tris : List (Nat × Nat × Nat)) :
    findDuplicates { vertices := [], normals := nrm, indices := tris } = none := rfl

/-- C2: whenever `removeDuplicates` completes on a mesh satisfying the §3
invariants, the compacted vertex count is at most the original vertex count,
with equality exactly when `findDuplicates` reports `hasDuplicates = false`
on the original mesh. -/
theorem C2_cardinality (m : Mesh) (hwf : m.wf) (m' : Mesh) (vm : List Int)
    (h : removeDuplicates m = some (m', vm)) :
    m'.vertices.length ≤ m.vertices.length ∧
      (m'.vertices.length = m.vertices.length ↔
        ∃ dm, findDuplicates m = some (false, dm)) := by
  obtain ⟨hn, rfl, rfl⟩ := removeDuplicates_inv hwf h
  obtain ⟨hd, hfd, hiff⟩ := findDuplicates_spec m hn
  rw [compactMesh_vertices_length]
  refine ⟨repsL_length_le m, ?_⟩
  rw [repsL_length_eq_iff]
  constructor
  · intro hall
    exact ⟨dmapSpec m, by rw [hfd, hiff.mpr hall]⟩
  · rintro ⟨dm, hdm⟩
    rw [hfd] at hdm
    simp only [Option.some.injEq, Prod.mk.injEq] at hdm
    exact hiff.mp hdm.1

theorem C2_cardinality_witness :
    meshA'.vertices.length ≤ meshA.vertices.length ∧
      (meshA'.vertices.length = meshA.vertices.length ↔
        ∃ dm, findDuplicates meshA = some (false, dm)) :=
  C2_cardinality meshA (by decide) meshA' vmA (by decide)

/-- C3: for every non-empty mesh satisfying the §3 invariants, every entry of
the returned vertex remap lies in `[0, compactedVertexCount)`, and every
index of every rewritten triangle is below the compacted vertex count. -/
theorem C3_remap_validity (m : Mesh) (hwf : m.wf) (hn : 0 < m.vertices.length)
    (m' : Mesh) (vm : List Int) (h : removeDuplicates m = some (m', vm)) :
    (∀ e ∈ vm, 0 ≤ e ∧ e < ((m'.vertices.length : Nat) : Int)) ∧
      ∀ t ∈ m'.indices, t.1 < m'.vertices.length ∧ t.2.1 < m'.vertices.length ∧
        t.2.2 < m'.vertices.length := by
  obtain ⟨_, rfl, rfl⟩ := removeDuplicates_inv hwf h
  constructor
  · intro e he
    rw [remapSpec] at he
    simp only [List.mem_map, List.mem_range] at he
    obtain ⟨i, hi, rfl⟩ := he
    have hlt := compIdx_lt hi
    rw [compactMesh_vertices_length]
    constructor
    · exact Int.natCast_nonneg _
    · exact_mod_cast hlt
  · exact (compactMesh_wf hwf).2

theorem C3_remap_validity_witness :
    (∀ e ∈ vmA, 0 ≤ e ∧ e < ((meshA'.vertices.length : Nat) : Int)) ∧
      ∀ t ∈ meshA'.indices, t.1 < meshA'.vertices.length ∧
        t.2.1 < meshA'.vertices.length ∧ t.2.2 < meshA'.vertices.length :=
  C3_remap_validity meshA (by decide) (by decide) meshA' vmA (by decide)

/-- C4: for every non-empty mesh satisfying the §3 invariants, the compacted
vertex found at position `remap[i]` carries exactly the position of original
vertex `i`. -/
theorem C4_position_preservation (m : Mesh) (hwf : m.wf)
    (hn : 0 < m.vertices.length) (m' : Mesh) (vm : List Int)
    (h : removeDuplicates m = some (m', vm)) :
    ∀ i < m.vertices.length,
      m'.vertices.getD (vm.getD i (-1)).toNat vec3def = posAt m i := by
  obtain ⟨_, rfl, rfl⟩ := removeDuplicates_inv hwf h
  intro i hi
  rw [remapSpec_getD hi, Int.toNat_natCast]
  have hlt := compIdx_lt hi
  have h1 : (compactMesh m).vertices.getD (compIdx m i) vec3def =
      posAt (compactMesh m) (compIdx m i) := rfl
  rw [h1, compactMesh_posAt hlt, repsL_getD_compIdx hi, posAt_rep hi]

theorem C4_position_preservation_witness :
    meshA'.vertices.getD (vmA.getD 2 (-1)).toNat vec3def = posAt meshA 2 :=
  C4_position_preservation meshA (by decide) (by decide) meshA' vmA (by decide) 2
    (by decide)

/-- C5: for every non-empty mesh satisfying the §3 invariants, compaction
keeps the triangle list length unchanged and rewrites the `k`-th triangle
`(a, b, c)` to exactly `(remap[a], remap[b], remap[c])`. -/
theorem C5_topology_preservation (m : Mesh) (hwf : m.wf)
    (hn : 0 < m.vertices.length) (m' : Mesh) (vm : List Int)
    (h : removeDuplicates m = some (m', vm)) :
    m'.indices.length = m.indices.length ∧
      ∀ k < m.indices.length,
        m'.indices.getD k (0, 0, 0) =
          ((vm.getD (m.indices.getD k (0, 0, 0)).1 (-1)).toNat,
            (vm.getD (m.indices.getD k (0, 0, 0)).2.1 (-1)).toNat,
            (vm.getD (m.indices.getD k (0, 0, 0)).2.2 (-1)).toNat) := by
  obtain ⟨_, rfl, rfl⟩ := removeDuplicates_inv hwf h
  constructor
  · rw [compactMesh]
    simp
  · intro k hk
    have ht : m.indices.getD k (0, 0, 0) ∈ m.indices := getD_mem _ _ hk
    obtain ⟨h1, h2, h3⟩ := hwf.2 _ ht
    have hm : (compactMesh m).indices.getD k (0, 0, 0) =
        (compIdx m (m.indices.getD k (0, 0, 0)).1,
          compIdx m (m.indices.getD k (0, 0, 0)).2.1,
          compIdx m (m.indices.getD k (0, 0, 0)).2.2) :=
      getD_map _ m.indices (0, 0, 0) (0, 0, 0) hk
    rw [hm, remapSpec_getD h1, remapSpec_getD h2, remapSpec_getD h3]
    simp

theorem C5_topology_preservation_witness :
    meshA'.indices.length = meshA.indices.length ∧
      ∀ k < meshA.indices.length,
        meshA'.indices.getD k (0, 0, 0) =
          ((vmA.getD (meshA.indices.getD k (0, 0, 0)).1 (-1)).toNat,
            (vmA.getD (meshA.indices.getD k (0, 0, 0)).2.1 (-1)).toNat,
            (vmA.getD (meshA.indices.getD k (0, 0, 0)).2.2 (-1)).toNat) :=
  C5_topology_preservation meshA (by decide) (by decide) meshA' vmA (by decide)

/-- C6: `removeDuplicates` is idempotent: on the mesh produced by a first
(successful) pass, a second pass returns the same mesh unchanged together
with the identity remap. -/
theorem C6_idempotence (m : Mesh) (hwf : m.wf) (hn : 0 < m.vertices.length)
    (m' : Mesh) (vm : List Int) (h : removeDuplicates m = some (m', vm)) :
    removeDuplicates m' =
      some (m', (List.range m'.vertices.length).map (fun i => ((i : Nat) : Int))) := by
  obtain ⟨_, rfl, _⟩ := removeDuplicates_inv hwf h
  have hn' : 0 < (compactMesh m).vertices.length := by
    rw [compactMesh_vertices_length]
    exact repsL_pos hn
  have hres := removeDuplicates_spec (compactMesh m) hn' (compactMesh_wf hwf)
  rw [hres, compactMesh_compactMesh hwf, remapSpec_compactMesh]

theorem C6_idempotence_witness :
    removeDuplicates meshA' =
      some (meshA', (List.range meshA'.vertices.length).map (fun i => ((i : Nat) : Int))) :=
  C6_idempotence meshA (by decide) (by decide) meshA' vmA (by decide)

/-- C7: the duplicates map sends every vertex to the smallest original index
sharing its exact position (so runs of three or more identical positions all
collapse to the single first-seen representative), and any two vertices with
equal positions receive equal map entries. -/
theorem C7_chain_collapsing (m : Mesh) (hn : 0 < m.vertices.length)
    (hd : Bool) (dm : List Int) (h : findDuplicates m = some (hd, dm)) :
    ∀ i < m.vertices.length,
      dm.getD i (-1) = ((rep m i : Nat) : Int) ∧
      rep m i ≤ i ∧
      posAt m (rep m i) = posAt m i ∧
      (∀ j < rep m i, posAt m j ≠ posAt m i) ∧
      ∀ j < m.vertices.length, posAt m j = posAt m i →
        dm.getD j (-1) = dm.getD i (-1) := by
  obtain ⟨hd0, hfd, _⟩ := findDuplicates_spec m hn
  rw [hfd] at h
  simp only [Option.some.injEq, Prod.mk.injEq] at h
  obtain ⟨-, rfl⟩ := h
  intro i hi
  refine ⟨getD_map_range _ _ hi, rep_le hi, posAt_rep hi, rep_min hi, ?_⟩
  intro j hj he
  simp only [dmapSpec]
  rw [getD_map_range _ _ hj, getD_map_range _ _ hi, rep_congr he]

theorem C7_chain_collapsing_witness :
    ([0, 1, 1, 1, 4] : List Int).getD 3 (-1) = ((rep meshB 3 : Nat) : Int) ∧
      rep meshB 3 ≤ 3 ∧
      posAt meshB (rep meshB 3) = posAt meshB 3 ∧
      (∀ j < rep meshB 3, posAt meshB j ≠ posAt meshB 3) ∧
      ∀ j < meshB.vertices.length, posAt meshB j = posAt meshB 3 →
        ([0, 1, 1, 1, 4] : List Int).getD j (-1) =
          ([0, 1, 1, 1, 4] : List Int).getD 3 (-1) :=
  C7_chain_collapsing meshB (by decide) true [0, 1, 1, 1, 4] (by decide) 3 (by decide)

/-- C8: on the spec §8 scenario mesh (four vertices, one duplicated position,
one triangle), detection reports duplicates and compaction produces exactly
the expected vertices, triangle and remap. -/
theorem C8_concrete_scenario :
    (∃ dm, findDuplicates meshA = some (true, dm)) ∧
      removeDuplicates meshA = some (meshA', vmA) :=
  ⟨⟨[0, 1, 0, 3], by decide⟩, by decide⟩

/-- C9: the comparator's total order leaves no two distinct sortable elements
equivalent, so any two sorted rearrangements of the vertex pair sequence are
equal and the detection result does not depend on which conforming sort
produced them. -/
theorem C9_determinism (m : Mesh) (l₁ l₂ : List (Vec3 × Int))
    (hp₁ : l₁.Perm (pairsOf m)) (hs₁ : List.Sorted vertLe l₁)
    (hp₂ : l₂.Perm (pairsOf m)) (hs₂ : List.Sorted vertLe l₂) :
    l₁ = l₂ ∧
      dedupWalk m.vertices.length l₁ = dedupWalk m.vertices.length l₂ ∧
      findDuplicates m = dedupWalk m.vertices.length l₁ := by
  have h12 : l₁ = l₂ :=
    List.eq_of_perm_of_sorted (hp₁.trans hp₂.symm) hs₁ hs₂
  have hcanon : l₁ = sortPairs (pairsOf m) :=
    List.eq_of_perm_of_sorted (hp₁.trans (sortPairs_perm _).symm) hs₁
      (sortPairs_sorted _)
  refine ⟨h12, by rw [h12], ?_⟩
  rw [findDuplicates, hcanon]

theorem C9_determinism_witness :
    ([(⟨0, 0, 0⟩, 0), (⟨0, 0, 0⟩, 2), (⟨1, 0, 0⟩, 1), (⟨1, 1, 0⟩, 3)] :
        List (Vec3 × Int)) =
      ([(⟨0, 0, 0⟩, 0), (⟨0, 0, 0⟩, 2), (⟨1, 0, 0⟩, 1), (⟨1, 1, 0⟩, 3)] :
        List (Vec3 × Int)) ∧
      dedupWalk meshA.vertices.length
          [(⟨0, 0, 0⟩, 0), (⟨0, 0, 0⟩, 2), (⟨1, 0, 0⟩, 1), (⟨1, 1, 0⟩, 3)] =
        dedupWalk meshA.vertices.length
          [(⟨0, 0, 0⟩, 0), (⟨0, 0, 0⟩, 2), (⟨1, 0, 0⟩, 1), (⟨1, 1, 0⟩, 3)] ∧
      findDuplicates meshA =
        dedupWalk meshA.vertices.length
          [(⟨0, 0, 0⟩, 0), (⟨0, 0, 0⟩, 2), (⟨1, 0, 0⟩, 1), (⟨1, 1, 0⟩, 3)] :=
  C9_determinism meshA
    [(⟨0, 0, 0⟩, 0), (⟨0, 0, 0⟩, 2), (⟨1, 0, 0⟩, 1), (⟨1, 1, 0⟩, 3)]
    [(⟨0, 0, 0⟩, 0), (⟨0, 0, 0⟩, 2), (⟨1, 0, 0⟩, 1), (⟨1, 1, 0⟩, 3)]
    (by decide) (by decide) (by decide) (by decide)

/-- C10: duplicate detection compares positions only — replacing the normals
array changes nothing in the detection result; vertices with equal positions
are merged even when their normals differ; and the compacted vertex keeps
exactly the representative's (first occurrence's) normal. -/
theorem C10_normals_ignored (m : Mesh) (hwf : m.wf) (hn : 0 < m.vertices.length)
    (m' : Mesh) (vm : List Int) (h : removeDuplicates m = some (m', vm)) :
    (∀ nrm : List Vec3,
      findDuplicates { vertices := m.vertices, normals := nrm, indices := m.indices } =
        findDuplicates m) ∧
    (∀ i < m.vertices.length, ∀ j < m.vertices.length, posAt m i = posAt m j →
      vm.getD i (-1) = vm.getD j (-1)) ∧
    ∀ i < m.vertices.length,
      m'.normals.getD (vm.getD i (-1)).toNat vec3def = nrmAt m (rep m i) := by
  obtain ⟨_, rfl, rfl⟩ := removeDuplicates_inv hwf h
  refine ⟨fun nrm => rfl, ?_, ?_⟩
  · intro i hi j hj he
    rw [remapSpec_getD hi, remapSpec_getD hj]
    have : compIdx m i = compIdx m j := by
      rw [compIdx, compIdx, rep_congr he]
    rw [this]
  · intro i hi
    rw [remapSpec_getD hi, Int.toNat_natCast]
    have hlt := compIdx_lt hi
    have h1 : (compactMesh m).normals.getD (compIdx m i) vec3def =
        nrmAt (compactMesh m) (compIdx m i) := rfl
    rw [h1, compactMesh_nrmAt hlt, repsL_getD_compIdx hi]

theorem C10_normals_ignored_witness :
    (∀ nrm : List Vec3,
      findDuplicates
          { vertices := meshB.vertices, normals := nrm, indices := meshB.indices } =
        findDuplicates meshB) ∧
    (∀ i < meshB.vertices.length, ∀ j < meshB.vertices.length,
      posAt meshB i = posAt meshB j → vmB.getD i (-1) = vmB.getD j (-1)) ∧
    ∀ i < meshB.vertices.length,
      meshB'.normals.getD (vmB.getD i (-1)).toNat vec3def = nrmAt meshB (rep meshB i) :=
  C10_normals_ignored meshB (by decide) (by decide) meshB' vmB (by decide)

end MeshDedup
